import Mathlib

/-!
# Verification of the chunked LOB transfer design of armnode-oracledb

The repository is documentation prose and runnable examples for a database
driver binding layer.  Its specification describes a language-agnostic
design for a streaming large-object (LOB) transfer engine: a `LobHandle`
(locator + state), a `FlowController` (paused/flowing chunk delivery,
error/completion signalling), a `LobReader` (chunked fetch loop), a
`LobWriter` (chunk-aligned forwarding, `end()` finalisation, `finish`
signal) and a transfer engine coordinating the commit signal with an
external transaction collaborator.

The engine itself is implemented in the external native client library,
not in this repository; the repository contains its documentation
(`Working with CLOB, NCLOB and BLOB Data`) and callers (`lobinsert2.js`,
`refcursor.js`, ...).  Accordingly the engine components below are
modelled from the specification text, while the example-program control
flow (`run()` with its `finally` block, the batched `getRows()` loop) is
embedded directly from the example sources.

Data is modelled as `List Nat` (a sequence of byte/character units);
loops are embedded as structurally recursive functions driven by a fuel
argument that provably suffices, so that every definition is executable.
-/

namespace Lob

/-- Error kinds of the design (spec §7 "Error kinds"): `InvalidLocator`,
`ClosedHandle`, `AlreadyClosed` (non-fatal, reported), `OutOfRange`,
`RemoteIOError`, `AbortedByCaller`. -/
inductive LobError where
  | InvalidLocator
  | ClosedHandle
  | AlreadyClosed
  | OutOfRange
  | RemoteIOError
  | AbortedByCaller
deriving DecidableEq, Repr

/-- LobHandle state (spec §3): `state ∈ {Open, Closed}`. -/
inductive HState where
  | Open
  | Closed
deriving DecidableEq, Repr

/-- Modelled from the spec: `close(handle)` / `destroy()` of the LobHandle,
whose implementation is in the external client library, not in this
repository.  Spec §4.1: close "fails with `AlreadyClosed` if called twice —
callers must tolerate idempotent close by treating the second call as a
no-op with a reported but non-fatal error"; spec §5: destroy "must be
idempotent (second call after already closed is a tolerated no-op, not a
crash)".  The outer `Except` is a thrown (fatal) error — never produced —
while the inner `Option LobError` is the reported non-fatal error. -/
def destroyHandle : HState → Except LobError (HState × Option LobError)
  | .Open => .ok (.Closed, none)
  | .Closed => .ok (.Closed, some .AlreadyClosed)

/-- Outcome of one execution of an example's `run()` function. -/
structure RunOutcome (Err : Type) where
  /-- whether `connection.close()` was invoked -/
  closeCalled : Bool
  /-- errors printed by `console.error` (caught, reported, not rethrown) -/
  reported : List Err
  /-- an error propagating out of `run()` (never happens) -/
  thrown : Option Err
deriving DecidableEq, Repr

/-- The shared control-flow shape of `run()` in the example programs
(`lobinsert2.js` lines 59–128, `insert1.js`, `dmlrupd.js`,
`refcursor.js`): `try { connection = await getConnection(...); <body> }
catch (err) { console.error(err) } finally { if (connection) { try
{ await connection.close() } catch (err) { console.error(err) } } }`.
`connRes` models `getConnection`, `body` the try-block after the
connection is obtained, `closeRes` the `connection.close()` call. -/
def runExample {Conn Err : Type} (connRes : Except Err Conn)
    (body : Conn → Except Err Unit) (closeRes : Conn → Except Err Unit) :
    RunOutcome Err :=
  match connRes with
  | .error e =>
    { closeCalled := false, reported := [e], thrown := none }
  | .ok conn =>
    let bodyReport : List Err :=
      match body conn with
      | .ok _ => []
      | .error e => [e]
    match closeRes conn with
    | .ok _ => { closeCalled := true, reported := bodyReport, thrown := none }
    | .error e =>
      { closeCalled := true, reported := bodyReport ++ [e], thrown := none }

/-- Signals the FlowController delivers to its consumer/observers during a
read transfer: the handle-close side effect, the completion signal and the
error signal (one registered error observer). -/
inductive REvent where
  | closed
  | complete
  | errorSig
deriving DecidableEq, Repr

/-- Result of running a read transfer end-to-end: the chunks emitted in
order, the terminal signals in the order they fire, the FlowController's
`error` flag, the final handle state, and the number of remote fetch
calls that were issued. -/
structure ReadResult where
  chunks : List (List Nat)
  events : List REvent
  err : Bool
  final : HState
  fetches : Nat
deriving DecidableEq, Repr

/-- Modelled from the spec: the flowing-mode fetch loop of the
FlowController / LobReader, whose implementation is in the external
client library, not in this repository.  Spec §4.2: the loop "issues
consecutive `read()` calls of size = pieceSize and emits each resulting
chunk to the consumer"; "after a read returns fewer than the requested
units (end of data), the controller marks `completed=true`, and — for
reads from the database only — invokes handle-close as a side effect
before signaling completion to the consumer"; "any read/write failure
sets `error`, suppresses further fetch attempts, and propagates the error
to exactly one registered error observer; it must NOT also emit a
completion signal", and (spec §7) after any `RemoteIOError` the handle is
closed before the error is surfaced.

`fail n` tells whether the `n`-th remote fetch call (0-based) fails;
`rem` is the not-yet-read suffix of the store; `fuel` bounds the number
of iterations (each successful full fetch consumes `ps ≥ 1` units, so
`rem.length + 1` provably suffices). -/
def readRunAux (fail : Nat → Bool) (ps : Nat) :
    Nat → Nat → List Nat → ReadResult
  | 0, _, _ => ⟨[], [], false, .Open, 0⟩
  | fuel + 1, n, rem =>
    if fail n then
      ⟨[], [.closed, .errorSig], true, .Closed, 1⟩
    else
      let c := rem.take ps
      if c.length < ps then
        ⟨if c.isEmpty then [] else [c], [.closed, .complete], false,
          .Closed, 1⟩
      else
        let r := readRunAux fail ps fuel (n + 1) (rem.drop ps)
        ⟨c :: r.chunks, r.events, r.err, r.final, r.fetches + 1⟩

/-- A full read transfer over a remote store holding the unit sequence
`store`, with piece size `ps` and fetch-failure pattern `fail`. -/
def readRun (fail : Nat → Bool) (ps : Nat) (store : List Nat) : ReadResult :=
  readRunAux fail ps (store.length + 1) 0 store

/-- The always-succeeding remote store (no injected fetch errors). -/
def noFail : Nat → Bool := fun _ => false

/-- LobWriter state machine (spec §4.4):
`Open → (write)* → Ending → Finished`, or `Open → Aborted` on
destroy/error; no transitions out of `Finished` or `Aborted`.  `Ending`
is the transient flushing phase inside `end()`. -/
inductive WState where
  | Open
  | Ending
  | Finished
  | Aborted
deriving DecidableEq, Repr

/-- Observable signals of a write transfer: a remote `writeChunk` call of
a given size, the writer's `finish` signal, the engine's commit-safe
signal to the transaction collaborator, and its rollback signal. -/
inductive WEvent where
  | chunkWritten (size : Nat)
  | finish
  | commitSafe
  | rollbackSig
deriving DecidableEq, Repr

/-- A LobWriter: state, outgoing buffer of not-yet-forwarded units, the
log of remote `writeChunk` call sizes, and how many times the handle was
finalized. -/
structure LobWriter where
  wstate : WState
  buffer : List Nat
  calls : List Nat
  finalized : Nat
deriving DecidableEq, Repr

/-- A freshly opened writable LOB handle. -/
def writerInit : LobWriter := ⟨.Open, [], [], 0⟩

/-- Splits a buffer into chunk-size-aligned full chunks plus the
remainder shorter than `cs`; `fuel` bounds the iterations (each one
removes `cs ≥ 1` units, so `buf.length + 1` suffices). -/
def splitChunksAux (cs : Nat) : Nat → List Nat → List (List Nat) × List Nat
  | 0, buf => ([], buf)
  | fuel + 1, buf =>
    if 0 < cs ∧ cs ≤ buf.length then
      let r := splitChunksAux cs fuel (buf.drop cs)
      (buf.take cs :: r.1, r.2)
    else ([], buf)

/-- `splitChunks cs buf = (full chunks of size cs, remainder)`. -/
def splitChunks (cs : Nat) (buf : List Nat) : List (List Nat) × List Nat :=
  splitChunksAux cs (buf.length + 1) buf

/-- Modelled from the spec: `LobWriter.write(chunk)`, implemented in the
external client library, not in this repository.  Spec §4.4: "`write(chunk)`
appends to the outgoing buffer and forwards to the remote handle in
chunk-size-aligned units, fails with `ClosedHandle` if already
finalized".  A successful write stays in `Open` (writers never auto-close
on completion of a write, spec §4.2). -/
def lobWrite (cs : Nat) (w : LobWriter) (chunk : List Nat) :
    Except LobError (LobWriter × List WEvent) :=
  if w.wstate = .Open then
    let s := splitChunks cs (w.buffer ++ chunk)
    .ok ({ wstate := .Open, buffer := s.2,
           calls := w.calls ++ s.1.map List.length,
           finalized := w.finalized },
         s.1.map fun c => WEvent.chunkWritten c.length)
  else .error .ClosedHandle

/-- Modelled from the spec: `LobWriter.end()`, implemented in the
external client library, not in this repository.  Spec §4.4: "`end()`
flushes remaining buffered bytes, finalizes the handle, and triggers the
`finish` signal"; the transient `Ending` flushing phase happens inside
this call. -/
def lobEnd (w : LobWriter) : Except LobError (LobWriter × List WEvent) :=
  if w.wstate = .Open then
    let flushCalls := if w.buffer.isEmpty then [] else [w.buffer.length]
    .ok ({ wstate := .Finished, buffer := [],
           calls := w.calls ++ flushCalls,
           finalized := w.finalized + 1 },
         (flushCalls.map WEvent.chunkWritten) ++ [.finish])
  else .error .ClosedHandle

/-- Operations a caller can issue against a write transfer. -/
inductive WOp where
  | write (chunk : List Nat)
  | endOp
  | destroy
deriving DecidableEq, Repr

/-- Modelled from the spec: one step of the transfer engine driving a
LobWriter (spec §4.5), implemented in the external client library, not in
this repository.  When the writer reaches `Finished` the engine signals
the external transaction collaborator that commit is now safe
(`commitSafe` directly after the writer's `finish`); on `Aborted` it
signals rollback.  A failed operation (e.g. `write()` after `end()`)
raises to the caller and leaves the writer unchanged. -/
def engineStep (cs : Nat) (w : LobWriter) : WOp → LobWriter × List WEvent
  | .write c =>
    match lobWrite cs w c with
    | .ok r => r
    | .error _ => (w, [])
  | .endOp =>
    match lobEnd w with
    | .ok r => (r.1, r.2 ++ [.commitSafe])
    | .error _ => (w, [])
  | .destroy =>
    if w.wstate = .Open then
      ({ wstate := .Aborted, buffer := [], calls := w.calls,
         finalized := w.finalized }, [.rollbackSig])
    else (w, [])

/-- Runs a sequence of operations from a given writer, collecting the
emitted signals in order. -/
def engineRunFrom (cs : Nat) (w : LobWriter) :
    List WOp → LobWriter × List WEvent
  | [] => (w, [])
  | op :: ops =>
    let s := engineStep cs w op
    let r := engineRunFrom cs s.1 ops
    (r.1, s.2 ++ r.2)

/-- A whole write transfer from a fresh handle. -/
def engineRun (cs : Nat) (ops : List WOp) : LobWriter × List WEvent :=
  engineRunFrom cs writerInit ops

/-- `1` exactly on the `Finished` writer state. -/
def finMark : WState → Nat
  | .Finished => 1
  | _ => 0

/-- No commit-safe signal before a finish signal: in every prefix of the
signal trace, the number of `commitSafe` signals is bounded by the number
of `finish` signals. -/
def noCommitBeforeFinish (evs : List WEvent) : Prop :=
  ∀ n, ((evs.take n).count WEvent.commitSafe) ≤
    ((evs.take n).count WEvent.finish)

/-- FlowController mode (spec §3): `mode ∈ {Paused, Flowing}`. -/
inductive FMode where
  | Paused
  | Flowing
deriving DecidableEq, Repr

/-- Events driving a FlowController mid-stream: completion of a remote
fetch producing a chunk (including a fetch that was already pending when
the controller was paused), and the caller-driven `pause()` / `resume()`
transitions. -/
inductive FEv where
  | fetched (c : List Nat)
  | pauseEv
  | resumeEv
deriving DecidableEq, Repr

/-- Mid-stream state of the FlowController: the mode, the pending buffer
of fetched-but-undelivered chunks, and the chunks delivered to the
consumer so far. -/
structure FlowController where
  mode : FMode
  buffer : List (List Nat)
  delivered : List (List Nat)
deriving DecidableEq, Repr

/-- A Readable Lob starts out in paused mode with nothing buffered. -/
def flowInit : FlowController := ⟨.Paused, [], []⟩

/-- Modelled from the spec: the FlowController's chunk routing,
implemented in the external client library, not in this repository.
Spec §4.2: transition `Flowing→Paused` "stops issuing further emissions,
buffering unconsumed look-ahead chunks (the next `read()` call already
pending, if any, still completes and the chunk should be queued rather
than discarded) until true Flowing resumption" — so a chunk arriving
while `Paused` is queued in the pending buffer, a chunk arriving while
`Flowing` is emitted to the consumer, and `resume()` delivers the
buffered backlog before fresh emissions. -/
def flowStep (f : FlowController) : FEv → FlowController
  | .fetched c =>
    if f.mode = .Flowing then { f with delivered := f.delivered ++ [c] }
    else { f with buffer := f.buffer ++ [c] }
  | .pauseEv => { f with mode := .Paused }
  | .resumeEv =>
    { mode := .Flowing, buffer := [], delivered := f.delivered ++ f.buffer }

/-- Runs a FlowController over a sequence of mid-stream events. -/
def flowRun (f : FlowController) (evs : List FEv) : FlowController :=
  evs.foldl flowStep f

/-- The chunks fetched from the remote store during an event sequence, in
fetch order. -/
def fetchedChunks (evs : List FEv) : List (List Nat) :=
  evs.filterMap fun e =>
    match e with
    | .fetched c => some c
    | _ => none

/-- The batched `getRows(numRows)` loop of `refcursor.js` (lines
136–142): `do { rows2 = await resultSet2.getRows(numRows); ... } while
(rows2.length === numRows)`.  A ResultSet holding `rows` serves
`getRows(numRows)` by handing out the next `numRows` rows (fewer at the
end); the loop collects the successive batches and stops after the first
call that returns fewer than `numRows` rows.  `fuel` bounds the
iterations (each full batch consumes `numRows ≥ 1` rows, so
`rows.length + 1` suffices when `numRows > 0`). -/
def getRowsBatchesAux {α : Type} (numRows : Nat) :
    Nat → List α → List (List α)
  | 0, _ => []
  | fuel + 1, rows =>
    if (rows.take numRows).length = numRows then
      rows.take numRows :: getRowsBatchesAux numRows fuel (rows.drop numRows)
    else [rows.take numRows]

/-- The list of batches returned by the `getRows(numRows)` loop over a
ResultSet holding `rows`. -/
def getRowsBatches {α : Type} (numRows : Nat) (rows : List α) :
    List (List α) :=
  getRowsBatchesAux numRows (rows.length + 1) rows

/-- With no injected failures and a positive piece size, the fetch loop
reassembles exactly the not-yet-read suffix of the store, provided the
fuel exceeds the remaining length. -/
theorem readRunAux_noFail_flatten (ps : Nat) (hps : 0 < ps) :
    ∀ fuel n rem, List.length rem < fuel →
      ((readRunAux noFail ps fuel n rem).chunks).flatten = rem := by
  intro fuel
  induction fuel with
  | zero => intro n rem h; omega
  | succ f ih =>
    intro n rem h
    simp only [readRunAux, noFail, Bool.false_eq_true, if_false]
    by_cases hc : (rem.take ps).length < ps
    · have hlen : rem.length ≤ ps := by
        have := List.length_take ps rem
        omega
      have htake : rem.take ps = rem := List.take_of_length_le hlen
      rw [if_pos (by rw [htake] at hc ⊢; exact hc)]
      simp only [htake]
      by_cases he : rem.isEmpty
      · rw [if_pos he]
        simpa [List.flatten] using (List.isEmpty_iff.mp he).symm
      · rw [if_neg he]
        simp [List.flatten]
    · rw [if_neg hc]
      have hlen : ps ≤ rem.length := by
        have := List.length_take ps rem
        omega
      have hdrop : (rem.drop ps).length < f := by
        have := List.length_drop ps rem
        omega
      simp only [List.flatten_cons, ih (n + 1) (rem.drop ps) hdrop]
      exact List.take_append_drop ps rem

/-- Every chunk the no-failure fetch loop emits is nonempty (a short final
read is emitted only when it carried data). -/
theorem readRunAux_noFail_chunks_ne_nil (ps : Nat) (hps : 0 < ps) :
    ∀ fuel n rem, ∀ c ∈ (readRunAux noFail ps fuel n rem).chunks, c ≠ [] := by
  intro fuel
  induction fuel with
  | zero => intro n rem c hc; simp [readRunAux] at hc
  | succ f ih =>
    intro n rem c hc
    simp only [readRunAux, noFail, Bool.false_eq_true, if_false] at hc
    by_cases hlt : (rem.take ps).length < ps
    · rw [if_pos hlt] at hc
      by_cases he : (rem.take ps).isEmpty
      · rw [if_pos he] at hc
        simp at hc
      · rw [if_neg he] at hc
        simp only [List.mem_singleton] at hc
        subst hc
        intro hnil
        rw [hnil] at he
        simp at he
    · rw [if_neg hlt] at hc
      simp only [List.mem_cons] at hc
      rcases hc with hc | hc
      · subst hc
        intro hnil
        rw [hnil] at hlt
        simp at hlt
        omega
      · exact ih (n + 1) (rem.drop ps) c hc

/-- Terminal analysis of the fetch loop: with enough fuel, a run either
ends in the error case (error flag set, signals `[closed, errorSig]`,
handle closed, and the last fetch issued is the failing one) or in the
completion case (signals `[closed, complete]`, handle closed, and every
fetch issued succeeded); in either case every non-final fetch succeeded,
so no fetch is attempted after a failure. -/
theorem readRunAux_error_cases (fail : Nat → Bool) (ps : Nat)
    (hps : 0 < ps) :
    ∀ fuel n rem, List.length rem < fuel →
      (((readRunAux fail ps fuel n rem).err = true ∧
        (readRunAux fail ps fuel n rem).events =
          [REvent.closed, REvent.errorSig] ∧
        (readRunAux fail ps fuel n rem).final = HState.Closed ∧
        0 < (readRunAux fail ps fuel n rem).fetches ∧
        fail (n + ((readRunAux fail ps fuel n rem).fetches - 1)) = true) ∨
       ((readRunAux fail ps fuel n rem).err = false ∧
        (readRunAux fail ps fuel n rem).events =
          [REvent.closed, REvent.complete] ∧
        (readRunAux fail ps fuel n rem).final = HState.Closed ∧
        0 < (readRunAux fail ps fuel n rem).fetches ∧
        ∀ m, m < (readRunAux fail ps fuel n rem).fetches →
          fail (n + m) = false)) ∧
      (∀ m, m + 1 < (readRunAux fail ps fuel n rem).fetches →
        fail (n + m) = false) := by
  intro fuel
  induction fuel with
  | zero => intro n rem h; omega
  | succ f ih =>
    intro n rem h
    by_cases hf : fail n
    · have hr : readRunAux fail ps (f + 1) n rem =
          ⟨[], [.closed, .errorSig], true, .Closed, 1⟩ := by
        show (if fail n then _ else _) = _
        rw [if_pos hf]
      rw [hr]
      refine ⟨Or.inl ⟨rfl, rfl, rfl, Nat.succ_pos 0, hf⟩, ?_⟩
      intro m hm
      have hm1 : m + 1 < 1 := hm
      exact absurd hm1 (by omega)
    · by_cases hlt : (rem.take ps).length < ps
      · have hr : readRunAux fail ps (f + 1) n rem =
            ⟨if (rem.take ps).isEmpty then [] else [rem.take ps],
              [.closed, .complete], false, .Closed, 1⟩ := by
          show (if fail n then _ else _) = _
          rw [if_neg hf, if_pos hlt]
        rw [hr]
        refine ⟨Or.inr ⟨rfl, rfl, rfl, Nat.succ_pos 0, ?_⟩, ?_⟩
        · intro m hm
          have hm1 : m < 1 := hm
          have hm0 : m = 0 := by omega
          subst hm0
          simpa using hf
        · intro m hm
          have hm1 : m + 1 < 1 := hm
          exact absurd hm1 (by omega)
      · have hlen : ps ≤ rem.length := by
          have := List.length_take ps rem
          omega
        have hr : readRunAux fail ps (f + 1) n rem =
            ⟨rem.take ps :: (readRunAux fail ps f (n + 1) (rem.drop ps)).chunks,
              (readRunAux fail ps f (n + 1) (rem.drop ps)).events,
              (readRunAux fail ps f (n + 1) (rem.drop ps)).err,
              (readRunAux fail ps f (n + 1) (rem.drop ps)).final,
              (readRunAux fail ps f (n + 1) (rem.drop ps)).fetches + 1⟩ := by
          show (if fail n then _ else _) = _
          rw [if_neg hf, if_neg hlt]
        rw [hr]
        have hdrop : (rem.drop ps).length < f := by
          have := List.length_drop ps rem
          omega
        obtain ⟨hcase, hall⟩ := ih (n + 1) (rem.drop ps) hdrop
        constructor
        · rcases hcase with ⟨he, hev, hfin, hpos, hlast⟩ |
            ⟨he, hev, hfin, _, hsucc⟩
          · refine Or.inl ⟨he, hev, hfin, Nat.succ_pos _, ?_⟩
            show fail (n + ((readRunAux fail ps f (n + 1)
              (rem.drop ps)).fetches + 1 - 1)) = true
            have heq : n + ((readRunAux fail ps f (n + 1)
                (rem.drop ps)).fetches + 1 - 1) =
                (n + 1) + ((readRunAux fail ps f (n + 1)
                  (rem.drop ps)).fetches - 1) := by omega
            rw [heq]
            exact hlast
          · refine Or.inr ⟨he, hev, hfin, Nat.succ_pos _, ?_⟩
            intro m hm
            have hm1 : m < (readRunAux fail ps f (n + 1)
              (rem.drop ps)).fetches + 1 := hm
            cases m with
            | zero => simpa using hf
            | succ k =>
              have heq : n + (k + 1) = (n + 1) + k := by omega
              rw [heq]
              exact hsucc k (by omega)
        · intro m hm
          have hm1 : m + 1 < (readRunAux fail ps f (n + 1)
            (rem.drop ps)).fetches + 1 := hm
          cases m with
          | zero => simpa using hf
          | succ k =>
            have heq : n + (k + 1) = (n + 1) + k := by omega
            rw [heq]
            exact hall k (by omega)

/-- **C2.** For every chunk sequence stored in the remote store, reading
a handle end-to-end via the LobReader reproduces exactly the stored
sequence: the concatenation of the emitted chunks equals the store (so
every unit appears exactly once, in order, with no gaps, duplicates or
reordering — chunk `i` starts exactly where chunk `i-1` ended, i.e. at
strictly increasing offsets), and no empty chunk is emitted. -/
theorem read_roundtrip (ps : Nat) (store : List Nat) (hps : 0 < ps) :
    ((readRun noFail ps store).chunks).flatten = store ∧
    ∀ c ∈ (readRun noFail ps store).chunks, c ≠ [] :=
  ⟨readRunAux_noFail_flatten ps hps (store.length + 1) 0 store
      (Nat.lt_succ_self _),
   readRunAux_noFail_chunks_ne_nil ps hps (store.length + 1) 0 store⟩

/-- Witness for **C2**: piece size 3 over a 7-unit store. -/
theorem read_roundtrip_witness :
    0 < 3 ∧
    ((readRun noFail 3 [1, 2, 3, 4, 5, 6, 7]).chunks).flatten =
      [1, 2, 3, 4, 5, 6, 7] :=
  ⟨by decide, (read_roundtrip 3 [1, 2, 3, 4, 5, 6, 7] (by decide)).1⟩

/-- **C3.** For every read transfer in which some issued remote fetch
call fails, the FlowController sets its `error` flag, delivers the error
signal to the (single) registered error observer exactly once, emits no
completion signal, the handle ends in the `Closed` state, and no fetch
attempt is issued after the failure: the failing call is the last fetch
issued and every earlier fetch succeeded. -/
theorem read_error_semantics (fail : Nat → Bool) (ps : Nat)
    (store : List Nat) (hps : 0 < ps)
    (hfail : ∃ m, m < (readRun fail ps store).fetches ∧ fail m = true) :
    (readRun fail ps store).err = true ∧
    ((readRun fail ps store).events).count REvent.errorSig = 1 ∧
    REvent.complete ∉ (readRun fail ps store).events ∧
    (readRun fail ps store).final = HState.Closed ∧
    fail ((readRun fail ps store).fetches - 1) = true ∧
    (∀ m, m + 1 < (readRun fail ps store).fetches → fail m = false) := by
  obtain ⟨hcase, hall⟩ := readRunAux_error_cases fail ps hps
    (store.length + 1) 0 store (Nat.lt_succ_self _)
  have hall0 : ∀ m, m + 1 < (readRun fail ps store).fetches →
      fail m = false := by
    intro m hm
    simpa using hall m hm
  rcases hcase with ⟨he, hev, hfin, _, hlast⟩ | ⟨_, _, _, _, hsucc⟩
  · refine ⟨he, ?_, ?_, hfin, ?_, hall0⟩
    · rw [show (readRun fail ps store).events =
        (readRunAux fail ps (store.length + 1) 0 store).events from rfl, hev]
      decide
    · rw [show (readRun fail ps store).events =
        (readRunAux fail ps (store.length + 1) 0 store).events from rfl, hev]
      decide
    · simpa using hlast
  · exfalso
    obtain ⟨m, hm, hmt⟩ := hfail
    have := hsucc m hm
    simp only [Nat.zero_add] at this
    rw [hmt] at this
    exact Bool.noConfusion this

/-- Witness for **C3**: the 2nd fetch call (index 1) fails, over a 6-unit
store with piece size 2; the error is observed exactly once, no
completion is signalled, the handle is closed, and the failing call is
the last of the 2 fetches issued. -/
theorem read_error_semantics_witness :
    (readRun (fun n => decide (n = 1)) 2 [1, 2, 3, 4, 5, 6]).err = true ∧
    ((readRun (fun n => decide (n = 1)) 2
        [1, 2, 3, 4, 5, 6]).events).count REvent.errorSig = 1 ∧
    REvent.complete ∉
      (readRun (fun n => decide (n = 1)) 2 [1, 2, 3, 4, 5, 6]).events ∧
    (readRun (fun n => decide (n = 1)) 2 [1, 2, 3, 4, 5, 6]).final =
      HState.Closed := by
  have h := read_error_semantics (fun n => decide (n = 1)) 2 [1, 2, 3, 4, 5, 6]
    (by decide) ⟨1, by decide, by decide⟩
  exact ⟨h.1, h.2.1, h.2.2.1, h.2.2.2.1⟩

set_option maxRecDepth 10000 in
/-- **C4.** For a remote store holding 1000 total units and a reader
configured with `pieceSize = 250`, a full flowing-mode read emits exactly
4 chunks of sizes `[250, 250, 250, 250]`, then exactly one completion
signal; the handle is closed automatically, and the close side effect
fires before the completion signal (the signal list is
`[closed, complete]`). -/
theorem read_1000_by_250 :
    ((readRun noFail 250 (List.replicate 1000 37)).chunks).map List.length =
      [250, 250, 250, 250] ∧
    (readRun noFail 250 (List.replicate 1000 37)).events =
      [REvent.closed, REvent.complete] ∧
    (readRun noFail 250 (List.replicate 1000 37)).final = HState.Closed := by
  refine ⟨?_, ?_, ?_⟩ <;> decide

set_option maxRecDepth 10000 in
/-- **C5.** For a LobWriter with chunk size 256, writing 600 bytes and
then calling `end()` results in exactly 3 remote `writeChunk` calls of
sizes `[256, 256, 88]` in that order, followed by exactly one finalize
triggered by `end()`: the signal trace shows the three `writeChunk`
calls, then the `finish` of the single finalize. -/
theorem write_600_with_chunk_256 :
    ((engineRun 256 [WOp.write (List.replicate 600 5), WOp.endOp]).1).calls =
      [256, 256, 88] ∧
    ((engineRun 256 [WOp.write (List.replicate 600 5), WOp.endOp]).1).finalized
      = 1 ∧
    (engineRun 256 [WOp.write (List.replicate 600 5), WOp.endOp]).2 =
      [WEvent.chunkWritten 256, WEvent.chunkWritten 256,
       WEvent.chunkWritten 88, WEvent.finish, WEvent.commitSafe] := by
  refine ⟨?_, ?_, ?_⟩ <;> decide

/-- A writer that is not `Open` is inert: every engine operation on it
leaves it unchanged and emits nothing (the failed call raises
`ClosedHandle` / is a tolerated destroy no-op). -/
theorem engineStep_not_open (cs : Nat) (op : WOp) (w : LobWriter)
    (hw : ¬ w.wstate = WState.Open) : engineStep cs w op = (w, []) := by
  cases op <;> simp [engineStep, lobWrite, lobEnd, hw]

/-- A successful `write()` from `Open` stays `Open`, does not finalize,
and emits only `chunkWritten` signals — never `finish` or `commitSafe`. -/
theorem lobWrite_open (cs : Nat) (w : LobWriter) (c : List Nat)
    (hw : w.wstate = WState.Open) :
    lobWrite cs w c =
      .ok ({ wstate := .Open, buffer := (splitChunks cs (w.buffer ++ c)).2,
             calls := w.calls ++
               ((splitChunks cs (w.buffer ++ c)).1).map List.length,
             finalized := w.finalized },
        ((splitChunks cs (w.buffer ++ c)).1).map
          fun x => WEvent.chunkWritten x.length) := by
  simp [lobWrite, hw]

/-- Running any number of `write()` operations from an `Open` writer
leaves it `Open` with the finalize count unchanged, and then the final
`end()` moves it to `Finished` and finalizes exactly once more. -/
theorem engineRunFrom_writes_end (cs : Nat) :
    ∀ (chunks : List (List Nat)) (w : LobWriter), w.wstate = WState.Open →
      ((engineRunFrom cs w
          (chunks.map WOp.write ++ [WOp.endOp])).1).wstate =
        WState.Finished ∧
      ((engineRunFrom cs w
          (chunks.map WOp.write ++ [WOp.endOp])).1).finalized =
        w.finalized + 1 := by
  intro chunks
  induction chunks with
  | nil =>
    intro w hw
    simp [engineRunFrom, engineStep, lobEnd, hw]
  | cons c rest ih =>
    intro w hw
    have hstep : engineStep cs w (WOp.write c) =
        ({ wstate := .Open, buffer := (splitChunks cs (w.buffer ++ c)).2,
           calls := w.calls ++
             ((splitChunks cs (w.buffer ++ c)).1).map List.length,
           finalized := w.finalized },
         ((splitChunks cs (w.buffer ++ c)).1).map
           fun x => WEvent.chunkWritten x.length) := by
      simp [engineStep, lobWrite_open cs w c hw]
    have hrun : engineRunFrom cs w
        ((c :: rest).map WOp.write ++ [WOp.endOp]) =
        ((engineRunFrom cs (engineStep cs w (WOp.write c)).1
            (rest.map WOp.write ++ [WOp.endOp])).1,
         (engineStep cs w (WOp.write c)).2 ++
          (engineRunFrom cs (engineStep cs w (WOp.write c)).1
            (rest.map WOp.write ++ [WOp.endOp])).2) := rfl
    rw [hrun, hstep]
    exact ih _ rfl

/-- **C6.** For every LobWriter, writing any sequence of chunks and then
calling `end()` finalizes the handle exactly once and leaves it
`Finished`; every subsequent `write()` fails with `ClosedHandle`; and no
engine operation makes a transition out of the `Finished` state. -/
theorem end_finalizes_once (cs : Nat) (chunks : List (List Nat)) :
    ((engineRun cs (chunks.map WOp.write ++ [WOp.endOp])).1).finalized = 1 ∧
    ((engineRun cs (chunks.map WOp.write ++ [WOp.endOp])).1).wstate =
      WState.Finished ∧
    (∀ c, lobWrite cs (engineRun cs (chunks.map WOp.write ++ [WOp.endOp])).1 c
      = Except.error LobError.ClosedHandle) ∧
    (∀ (op : WOp) (w0 : LobWriter), w0.wstate = WState.Finished →
      ((engineStep cs w0 op).1).wstate = WState.Finished) := by
  obtain ⟨hst, hfin⟩ := engineRunFrom_writes_end cs chunks writerInit rfl
  have hst' : ((engineRun cs
      (chunks.map WOp.write ++ [WOp.endOp])).1).wstate = WState.Finished := hst
  have hfin' : ((engineRun cs
      (chunks.map WOp.write ++ [WOp.endOp])).1).finalized = 1 := hfin
  refine ⟨hfin', hst', ?_, ?_⟩
  · intro c
    have hne : ¬ ((engineRun cs
        (chunks.map WOp.write ++ [WOp.endOp])).1).wstate = WState.Open := by
      rw [hst']
      exact fun h => WState.noConfusion h
    simp [lobWrite, hne]
  · intro op w0 hw0
    have hne : ¬ w0.wstate = WState.Open := by
      rw [hw0]
      exact fun h => WState.noConfusion h
    rw [engineStep_not_open cs op w0 hne]
    exact hw0

/-- Witness for **C6**: chunk size 4, writing chunks `[1,2,3]`, `[4,5]`
then `end()`. -/
theorem end_finalizes_once_witness :
    ((engineRun 4 ([[1, 2, 3], [4, 5]].map WOp.write ++ [WOp.endOp])).1).finalized
      = 1 ∧
    lobWrite 4
      (engineRun 4 ([[1, 2, 3], [4, 5]].map WOp.write ++ [WOp.endOp])).1 [9]
      = Except.error LobError.ClosedHandle ∧
    ((engineStep 4 ⟨WState.Finished, [], [4, 1], 1⟩ WOp.destroy).1).wstate =
      WState.Finished :=
  ⟨(end_finalizes_once 4 [[1, 2, 3], [4, 5]]).1,
   (end_finalizes_once 4 [[1, 2, 3], [4, 5]]).2.2.1 [9],
   (end_finalizes_once 4 [[1, 2, 3], [4, 5]]).2.2.2 WOp.destroy
     ⟨WState.Finished, [], [4, 1], 1⟩ rfl⟩

/-- The prefix-ordering property is closed under concatenation. -/
theorem noCommitBeforeFinish_append {A B : List WEvent}
    (hA : noCommitBeforeFinish A) (hB : noCommitBeforeFinish B) :
    noCommitBeforeFinish (A ++ B) := by
  intro n
  rw [List.take_append_eq_append_take, List.count_append, List.count_append]
  exact Nat.add_le_add (hA n) (hB (n - A.length))

/-- A trace with no `commitSafe` at all trivially satisfies the
prefix-ordering property. -/
theorem noCommitBeforeFinish_of_not_mem {A : List WEvent}
    (h : WEvent.commitSafe ∉ A) : noCommitBeforeFinish A := by
  intro n
  have hnm : WEvent.commitSafe ∉ A.take n :=
    fun hm => h (List.take_subset n A hm)
  rw [List.count_eq_zero.mpr hnm]
  exact Nat.zero_le _

/-- The block `[finish, commitSafe]` satisfies the prefix-ordering
property: the commit-safe signal comes second. -/
theorem noCommitBeforeFinish_pair :
    noCommitBeforeFinish [WEvent.finish, WEvent.commitSafe] := by
  intro n
  match n with
  | 0 => decide
  | 1 => decide
  | k + 2 =>
    rw [List.take_of_length_le (by simp)]
    decide

/-- One engine step preserves the trace invariant: the number of `finish`
signals and the number of `commitSafe` signals it emits both equal the
gain of the `Finished` marker, and within the step's own signals no
commit-safe precedes a finish. -/
theorem engineStep_inv (cs : Nat) (op : WOp) (w : LobWriter) :
    ((engineStep cs w op).2.count WEvent.finish + finMark w.wstate
      = finMark ((engineStep cs w op).1).wstate) ∧
    ((engineStep cs w op).2.count WEvent.commitSafe + finMark w.wstate
      = finMark ((engineStep cs w op).1).wstate) ∧
    noCommitBeforeFinish (engineStep cs w op).2 := by
  by_cases hw : w.wstate = WState.Open
  · cases op with
    | write c =>
      have hstep : engineStep cs w (WOp.write c) =
          ({ wstate := .Open,
             buffer := (splitChunks cs (w.buffer ++ c)).2,
             calls := w.calls ++
               ((splitChunks cs (w.buffer ++ c)).1).map List.length,
             finalized := w.finalized },
           ((splitChunks cs (w.buffer ++ c)).1).map
             fun x => WEvent.chunkWritten x.length) := by
        simp [engineStep, lobWrite_open cs w c hw]
      rw [hstep, hw]
      refine ⟨?_, ?_, noCommitBeforeFinish_of_not_mem (by simp)⟩
      · rw [List.count_eq_zero.mpr (by simp)]
        rfl
      · rw [List.count_eq_zero.mpr (by simp)]
        rfl
    | endOp =>
      have hstep : engineStep cs w WOp.endOp =
          ({ wstate := .Finished, buffer := [],
             calls := w.calls ++
               (if w.buffer.isEmpty then [] else [w.buffer.length]),
             finalized := w.finalized + 1 },
           (((if w.buffer.isEmpty then [] else [w.buffer.length]).map
              WEvent.chunkWritten) ++ [WEvent.finish]) ++
            [WEvent.commitSafe]) := by
        simp [engineStep, lobEnd, hw]
      have hshape :
          (((if w.buffer.isEmpty then [] else [w.buffer.length]).map
              WEvent.chunkWritten) ++ [WEvent.finish]) ++
            [WEvent.commitSafe] =
          ((if w.buffer.isEmpty then [] else [w.buffer.length]).map
              WEvent.chunkWritten) ++
            [WEvent.finish, WEvent.commitSafe] := by
        rw [List.append_assoc]
        rfl
      rw [hstep, hshape, hw]
      refine ⟨?_, ?_, ?_⟩
      · rw [List.count_append, List.count_eq_zero.mpr (by simp)]
        rfl
      · rw [List.count_append, List.count_eq_zero.mpr (by simp)]
        rfl
      · exact noCommitBeforeFinish_append
          (noCommitBeforeFinish_of_not_mem (by simp))
          noCommitBeforeFinish_pair
    | destroy =>
      have hstep : engineStep cs w WOp.destroy =
          ({ wstate := .Aborted, buffer := [], calls := w.calls,
             finalized := w.finalized }, [WEvent.rollbackSig]) := by
        simp [engineStep, hw]
      rw [hstep, hw]
      exact ⟨rfl, rfl, noCommitBeforeFinish_of_not_mem (by simp)⟩
  · rw [engineStep_not_open cs op w hw]
    exact ⟨by simp, by simp, noCommitBeforeFinish_of_not_mem (by simp)⟩

/-- The trace invariant for whole runs: the numbers of `finish` and
`commitSafe` signals both equal the gain of the `Finished` marker across
the run, and no prefix of the trace has more commit-safe signals than
finish signals. -/
theorem engineRunFrom_inv (cs : Nat) :
    ∀ (ops : List WOp) (w : LobWriter),
      ((engineRunFrom cs w ops).2.count WEvent.finish + finMark w.wstate
        = finMark ((engineRunFrom cs w ops).1).wstate) ∧
      ((engineRunFrom cs w ops).2.count WEvent.commitSafe + finMark w.wstate
        = finMark ((engineRunFrom cs w ops).1).wstate) ∧
      noCommitBeforeFinish (engineRunFrom cs w ops).2 := by
  intro ops
  induction ops with
  | nil =>
    intro w
    exact ⟨by simp [engineRunFrom], by simp [engineRunFrom],
      noCommitBeforeFinish_of_not_mem (by simp [engineRunFrom])⟩
  | cons op ops ih =>
    intro w
    obtain ⟨h1, h2, h3⟩ := engineStep_inv cs op w
    obtain ⟨h4, h5, h6⟩ := ih (engineStep cs w op).1
    have hfst : (engineRunFrom cs w (op :: ops)).1 =
        (engineRunFrom cs (engineStep cs w op).1 ops).1 := rfl
    have hsnd : (engineRunFrom cs w (op :: ops)).2 =
        (engineStep cs w op).2 ++
          (engineRunFrom cs (engineStep cs w op).1 ops).2 := rfl
    rw [hfst, hsnd]
    refine ⟨?_, ?_, noCommitBeforeFinish_append h3 h6⟩
    · rw [List.count_append]
      omega
    · rw [List.count_append]
      omega

/-- The `Finished` marker is at most `1`. -/
theorem finMark_le_one (s : WState) : finMark s ≤ 1 := by
  cases s <;> decide

/-- **C1.** For every write transfer: a completed `write()` never
auto-closes the writer (it stays `Open`, does not finalize, and emits
neither `finish` nor `commitSafe`); the whole trace contains at most one
`finish` signal (emitted by `end()` after it flushes and finalizes); the
engine signals the transaction collaborator commit-safe only after the
writer reached `Finished` (a `commitSafe` in the trace implies the writer
ended `Finished`), and in no prefix of the trace does a commit-safe
signal precede the finish signal — so for a RETURNING-style insert no
commit occurs before the finish signal. -/
theorem writer_finish_then_commit (cs : Nat) (ops : List WOp) :
    ((engineRun cs ops).2.count WEvent.finish ≤ 1) ∧
    noCommitBeforeFinish (engineRun cs ops).2 ∧
    (WEvent.commitSafe ∈ (engineRun cs ops).2 →
      ((engineRun cs ops).1).wstate = WState.Finished) ∧
    (∀ (w : LobWriter) (c : List Nat), w.wstate = WState.Open →
      ∃ w2 evs, lobWrite cs w c = .ok (w2, evs) ∧
        w2.wstate = WState.Open ∧ w2.finalized = w.finalized ∧
        WEvent.finish ∉ evs ∧ WEvent.commitSafe ∉ evs) := by
  obtain ⟨h1, h2, h3⟩ := engineRunFrom_inv cs ops writerInit
  have h1' : (engineRun cs ops).2.count WEvent.finish +
      finMark writerInit.wstate = finMark ((engineRun cs ops).1).wstate := h1
  have h2' : (engineRun cs ops).2.count WEvent.commitSafe +
      finMark writerInit.wstate = finMark ((engineRun cs ops).1).wstate := h2
  have hmark : finMark ((engineRun cs ops).1).wstate ≤ 1 :=
    finMark_le_one _
  have hinit : finMark writerInit.wstate = 0 := rfl
  refine ⟨by omega, h3, ?_, ?_⟩
  · intro hmem
    have hpos : 0 < (engineRun cs ops).2.count WEvent.commitSafe :=
      List.count_pos_iff.mpr hmem
    have hfin : finMark ((engineRun cs ops).1).wstate = 1 := by omega
    revert hfin
    cases h : ((engineRun cs ops).1).wstate <;> simp [finMark]
  · intro w c hw
    refine ⟨_, _, lobWrite_open cs w c hw, rfl, rfl, by simp, by simp⟩

/-- Witness for **C1**: chunk size 2 and the op sequence
`[write [1,2,3], end]`; additionally a concrete `write()` from a fresh
writer succeeds (does not fail with `ClosedHandle`), instantiating the
never-auto-close clause. -/
theorem writer_finish_then_commit_witness :
    ((engineRun 2 [WOp.write [1, 2, 3], WOp.endOp]).2.count WEvent.finish
      ≤ 1) ∧
    (((engineRun 2 [WOp.write [1, 2, 3], WOp.endOp]).2.take 5).count
        WEvent.commitSafe ≤
      ((engineRun 2 [WOp.write [1, 2, 3], WOp.endOp]).2.take 5).count
        WEvent.finish) ∧
    ((engineRun 2 [WOp.write [1, 2, 3], WOp.endOp]).1).wstate =
      WState.Finished ∧
    lobWrite 2 writerInit [7] ≠ Except.error LobError.ClosedHandle := by
  obtain ⟨ha, hb, hc, hd⟩ :=
    writer_finish_then_commit 2 [WOp.write [1, 2, 3], WOp.endOp]
  refine ⟨ha, hb 5, hc (by decide), ?_⟩
  obtain ⟨w2, evs, heq, -, -, -, -⟩ :=
    hd writerInit [7] rfl
  rw [heq]
  exact fun h => Except.noConfusion h

/-- Generalised no-loss invariant: starting from any state in which a
flowing controller has an empty backlog, the delivered chunks followed by
the pending buffer are exactly the initial backlog followed by every
chunk fetched during the run, in order. -/
theorem flowRun_no_loss :
    ∀ (evs : List FEv) (f : FlowController),
      (f.mode = FMode.Flowing → f.buffer = []) →
      (flowRun f evs).delivered ++ (flowRun f evs).buffer =
        f.delivered ++ f.buffer ++ fetchedChunks evs := by
  intro evs
  induction evs with
  | nil =>
    intro f _
    simp [flowRun, fetchedChunks]
  | cons e rest ih =>
    intro f hinv
    have hrun : flowRun f (e :: rest) = flowRun (flowStep f e) rest := rfl
    rw [hrun]
    cases e with
    | fetched c =>
      by_cases hm : f.mode = FMode.Flowing
      · have hstep : flowStep f (FEv.fetched c) =
            { f with delivered := f.delivered ++ [c] } := by
          simp [flowStep, hm]
        have hbuf : f.buffer = [] := hinv hm
        rw [hstep, ih _ (by intro _; exact hbuf)]
        simp [fetchedChunks, hbuf]
      · have hstep : flowStep f (FEv.fetched c) =
            { f with buffer := f.buffer ++ [c] } := by
          simp [flowStep, hm]
        rw [hstep, ih _ (by intro h; exact absurd h hm)]
        simp [fetchedChunks]
    | pauseEv =>
      have hstep : flowStep f FEv.pauseEv = { f with mode := .Paused } := rfl
      rw [hstep, ih _ (by intro h; exact FMode.noConfusion h)]
      simp [fetchedChunks]
    | resumeEv =>
      have hstep : flowStep f FEv.resumeEv =
          { mode := .Flowing, buffer := [],
            delivered := f.delivered ++ f.buffer } := rfl
      rw [hstep, ih _ (by intro _; rfl)]
      simp [fetchedChunks]

/-- **C7.** For every read transfer and every mid-stream interleaving of
`pause()` / `resume()` transitions with fetch completions — in particular
switching Paused→Flowing→Paused with a fetch still pending at the moment
of pausing — no chunk is lost: the chunks delivered to the consumer
followed by the chunks retained in the pending buffer are exactly the
chunks fetched during the run, in order. -/
theorem flow_pause_resume_no_loss (evs : List FEv) :
    (flowRun flowInit evs).delivered ++ (flowRun flowInit evs).buffer =
      fetchedChunks evs := by
  have h := flowRun_no_loss evs flowInit
    (by intro h; exact FMode.noConfusion h)
  simpa [flowInit] using h

/-- With positive batch size and enough fuel, concatenating the batches
gives back exactly the rows of the ResultSet. -/
theorem getRowsBatchesAux_flatten {α : Type} (numRows : Nat)
    (hn : 0 < numRows) :
    ∀ (fuel : Nat) (rows : List α), rows.length < fuel →
      (getRowsBatchesAux numRows fuel rows).flatten = rows := by
  intro fuel
  induction fuel with
  | zero => intro rows h; omega
  | succ f ih =>
    intro rows h
    by_cases hb : (rows.take numRows).length = numRows
    · have hr : getRowsBatchesAux numRows (f + 1) rows =
          rows.take numRows ::
            getRowsBatchesAux numRows f (rows.drop numRows) := by
        show (if _ then _ else _) = _
        rw [if_pos hb]
      have hlen : numRows ≤ rows.length := by
        have := List.length_take numRows rows
        omega
      have hdrop : (rows.drop numRows).length < f := by
        have := List.length_drop numRows rows
        omega
      rw [hr, List.flatten_cons, ih (rows.drop numRows) hdrop]
      exact List.take_append_drop numRows rows
    · have hr : getRowsBatchesAux numRows (f + 1) rows =
          [rows.take numRows] := by
        show (if _ then _ else _) = _
        rw [if_neg hb]
      have hlen : rows.length ≤ numRows := by
        have := List.length_take numRows rows
        omega
      rw [hr]
      simp [List.take_of_length_le hlen]

/-- With positive batch size and enough fuel: each batch before the last
has exactly `numRows` rows, and the last batch has fewer than `numRows`
rows — the loop stops precisely at the first short batch. -/
theorem getRowsBatchesAux_sizes {α : Type} (numRows : Nat)
    (hn : 0 < numRows) :
    ∀ (fuel : Nat) (rows : List α), rows.length < fuel →
      (∀ b ∈ (getRowsBatchesAux numRows fuel rows).dropLast,
        b.length = numRows) ∧
      (∀ b, (getRowsBatchesAux numRows fuel rows).getLast? = some b →
        b.length < numRows) := by
  intro fuel
  induction fuel with
  | zero => intro rows h; omega
  | succ f ih =>
    intro rows h
    by_cases hb : (rows.take numRows).length = numRows
    · have hr : getRowsBatchesAux numRows (f + 1) rows =
          rows.take numRows ::
            getRowsBatchesAux numRows f (rows.drop numRows) := by
        show (if _ then _ else _) = _
        rw [if_pos hb]
      have hlen : numRows ≤ rows.length := by
        have := List.length_take numRows rows
        omega
      have hdrop : (rows.drop numRows).length < f := by
        have := List.length_drop numRows rows
        omega
      obtain ⟨ih1, ih2⟩ := ih (rows.drop numRows) hdrop
      have hne : getRowsBatchesAux numRows f (rows.drop numRows) ≠ [] := by
        cases hf : f with
        | zero => omega
        | succ f2 =>
          show (if _ then _ else _) ≠ []
          by_cases hb2 : ((rows.drop numRows).take numRows).length = numRows
          · rw [if_pos hb2]
            exact List.cons_ne_nil _ _
          · rw [if_neg hb2]
            exact List.cons_ne_nil _ _
      rw [hr]
      constructor
      · intro b hbmem
        rw [List.dropLast_cons_of_ne_nil hne] at hbmem
        rcases List.mem_cons.mp hbmem with hbeq | hbmem2
        · rw [hbeq]
          exact hb
        · exact ih1 b hbmem2
      · intro b hblast
        obtain ⟨x, xs, hxx⟩ := List.exists_cons_of_ne_nil hne
        rw [hxx, List.getLast?_cons_cons] at hblast
        apply ih2 b
        rw [hxx]
        exact hblast
    · have hr : getRowsBatchesAux numRows (f + 1) rows =
          [rows.take numRows] := by
        show (if _ then _ else _) = _
        rw [if_neg hb]
      rw [hr]
      constructor
      · intro b hbmem
        simp at hbmem
      · intro b hblast
        simp at hblast
        rw [← hblast]
        have := List.length_take numRows rows
        omega

set_option maxRecDepth 10000 in
/-- **C9.** For every REF CURSOR result set and batch size `numRows = 10`,
the batched `getRows` loop terminates and returns each row exactly once
across the batches (their concatenation is exactly the result set); every
batch before the last has exactly 10 rows and the last has fewer than 10,
so the loop stops precisely after the first call that returns fewer than
`numRows` rows; for a 23-row result set the three calls return 10, 10 and
3 rows. -/
theorem getrows_batches_exact (rows : List Nat) :
    ((getRowsBatches 10 rows).flatten = rows) ∧
    (∀ b ∈ (getRowsBatches 10 rows).dropLast, b.length = 10) ∧
    (∀ b, (getRowsBatches 10 rows).getLast? = some b → b.length < 10) ∧
    ((getRowsBatches 10 (List.range 23)).map List.length = [10, 10, 3]) := by
  obtain ⟨h1, h2⟩ := getRowsBatchesAux_sizes 10 (by decide)
    (rows.length + 1) rows (Nat.lt_succ_self _)
  exact ⟨getRowsBatchesAux_flatten 10 (by decide) (rows.length + 1) rows
    (Nat.lt_succ_self _), h1, h2, by decide⟩

set_option maxRecDepth 10000 in
/-- Witness for **C9**: the 23-row result set; the loop reproduces the
rows and its first batch (the first 10 rows) has exactly 10 rows. -/
theorem getrows_batches_exact_witness :
    (getRowsBatches 10 (List.range 23)).flatten = List.range 23 ∧
    (List.range 10).length = 10 :=
  ⟨(getrows_batches_exact (List.range 23)).1,
   (getrows_batches_exact (List.range 23)).2.1 (List.range 10) (by decide)⟩

/-- **C8.** For every handle, calling `destroy()` a second time after the
handle is already closed yields the `AlreadyClosed` error on the second
call but does not throw or crash: both calls return (outer `Except` is
`.ok`), the second merely reports `AlreadyClosed` as a non-fatal error. -/
theorem destroy_twice_already_closed (s : HState) :
    ∃ r1 : Option LobError, destroyHandle s = .ok (HState.Closed, r1) ∧
      destroyHandle HState.Closed =
        .ok (HState.Closed, some LobError.AlreadyClosed) := by
  cases s with
  | Open => exact ⟨none, rfl, rfl⟩
  | Closed => exact ⟨some .AlreadyClosed, rfl, rfl⟩

/-- **C10.** In every example program the connection is released on every
execution path: `run()` never propagates an error out (`thrown = none`);
whenever `getConnection` succeeded, `close()` is called in the `finally`
block whether the body succeeded or threw; and an error raised by
`close()` itself is caught and reported rather than propagated. -/
theorem run_releases_connection {Conn Err : Type}
    (connRes : Except Err Conn) (body : Conn → Except Err Unit)
    (closeRes : Conn → Except Err Unit) :
    (runExample connRes body closeRes).thrown = none ∧
    (∀ c, connRes = .ok c →
      (runExample connRes body closeRes).closeCalled = true) ∧
    (∀ c e, connRes = .ok c → closeRes c = .error e →
      e ∈ (runExample connRes body closeRes).reported) := by
  refine ⟨?_, ?_, ?_⟩
  · cases connRes with
    | error e => rfl
    | ok conn =>
      simp only [runExample]
      cases body conn <;> cases closeRes conn <;> rfl
  · intro c hc
    subst hc
    simp only [runExample]
    cases body c <;> cases closeRes c <;> rfl
  · intro c e hc hd
    subst hc
    simp only [runExample, hd]
    cases body c <;> simp

/-- Witness for **C10** at a concrete input: the connection is obtained,
the body throws error `7`, and `close()` itself throws error `9`; `run()`
still calls close, reports `9`, and throws nothing. -/
theorem run_releases_connection_witness :
    (runExample (Except.ok 0) (fun _ => Except.error 7)
        (fun _ => Except.error 9)).thrown = (none : Option Nat) ∧
    (runExample (Except.ok 0) (fun _ => Except.error 7)
        (fun _ => Except.error 9)).closeCalled = true ∧
    9 ∈ (runExample (Except.ok 0) (fun _ => Except.error 7)
        (fun _ => Except.error 9)).reported :=
  ⟨(run_releases_connection (Except.ok 0) (fun _ => Except.error 7)
      (fun _ => Except.error 9)).1,
   (run_releases_connection (Except.ok 0) (fun _ => Except.error 7)
      (fun _ => Except.error 9)).2.1 0 rfl,
   (run_releases_connection (Except.ok 0) (fun _ => Except.error 7)
      (fun _ => Except.error 9)).2.2 0 9 rfl rfl⟩

end Lob
